import Mathlib

/-!
Verification of the market-surfer volatility / stress-regime core.

This file gives a shallow embedding, in Lean 4, of the numeric core of the
repository:

* `src/volatility_analysis.py` — return computation, rolling annualized
  volatility (`calculate_volatility`), quartile assignment (`assign_quartile`);
* `src/mahalanobis_regime.py` — rolling Mahalanobis distance
  (`calculate_mahalanobis_distance`), percentile/regime assignment
  (`assign_percentile_buckets`) and the chi-squared stress score
  (`calculate_chi2_pvalue`).

Modelling conventions:

* pandas/NumPy floats are modelled by exact numbers: input values by `ℚ`,
  derived values that pass through `log`/`sqrt`/the chi-squared CDF by `ℝ`.
* a NaN (missing) cell is `none : Option _`; an aggregation whose NumPy result
  would be NaN (or otherwise non-finite) is `none` as well.
* pandas column assignment `df[name] = col` is replace-or-append on an
  association list of named columns.
-/

namespace MarketSurfer

/-! ### Return computation (volatility_analysis.py, calculate_volatility lines 169-178) -/

/-- Return method selected by the `--method` CLI flag: `log` or `bps`. -/
inductive RetMethod
  | log
  | bps
deriving DecidableEq

/-- One step of return computation from two consecutive `Close` values,
mirroring lines 169-178 of `volatility_analysis.py`:
`log` gives `ln(cur/prev)`; `bps` with FRED yield data gives `100*(cur-prev)`;
`bps` with price data gives `10000*(cur-prev)/prev` (pct_change scaled).
NumPy would return NaN/±inf when a `log` sees a non-positive ratio or a
pct_change divides by zero; those non-finite outcomes are modelled as `none`. -/
noncomputable def retStep (method : RetMethod) (isFred : Bool) (prev cur : ℚ) : Option ℝ :=
  match method with
  | RetMethod.log =>
      if 0 < prev ∧ 0 < cur then some (Real.log ((cur : ℝ) / (prev : ℝ))) else none
  | RetMethod.bps =>
      if isFred then some (100 * ((cur : ℝ) - (prev : ℝ)))
      else if prev ≠ 0 then some (10000 * ((cur : ℝ) - (prev : ℝ)) / (prev : ℝ)) else none

/-- The `Returns` column produced from the `Close` column: entry `t` combines
`close[t-1]` and `close[t]`; entry `0` is NaN (`shift(1)` has no prior value). -/
noncomputable def returnsColumn (close : List ℚ) (method : RetMethod) (isFred : Bool) :
    List (Option ℝ) :=
  (List.range close.length).map fun t =>
    if t = 0 then none
    else
      match close[t-1]?, close[t]? with
      | some p, some c => retStep method isFred p c
      | _, _ => none

/-! ### Rolling windows (pandas `Series.rolling(window=N)`) -/

/-- Sequence a list of optional values: `some` of the list of values when every
entry is defined, otherwise `none`. -/
def seqOption {α : Type} : List (Option α) → Option (List α)
  | [] => some []
  | none :: _ => none
  | some x :: rest => (seqOption rest).map (x :: ·)

/-- The trailing window of the column ending at position `t` (inclusive) with
nominal size `N`: entries `t+1-N, …, t`.  Only consulted when `N ≤ t+1`. -/
def windowSlice {α : Type} (xs : List (Option α)) (N t : ℕ) : List (Option α) :=
  (xs.drop (t + 1 - N)).take N

/-- pandas `rolling(window=N).agg`: position `t` is defined only when the
window holds `N` rows (`N ≤ t+1`) all of which are non-NaN (default
`min_periods = N`); then the aggregate `f` is applied to the raw values. -/
def rollingAgg {α : Type} (f : List α → Option α) (N : ℕ) (xs : List (Option α)) :
    List (Option α) :=
  (List.range xs.length).map fun t =>
    if N ≤ t + 1 then
      match seqOption (windowSlice xs N t) with
      | some w => f w
      | none => none
    else none

/-- Rolling mean over `N` observations (line 183). -/
def rollMean {α : Type} [Field α] (N : ℕ) (xs : List (Option α)) : List (Option α) :=
  rollingAgg (fun w => some (w.sum / (N : α))) N xs

/-- Rolling unbiased sample variance, `ddof = 1` (line 185): sum of squared
deviations from the window mean divided by `N - 1`; pandas yields NaN when
`N = 1` (zero divided by zero degrees of freedom). -/
def rollVar {α : Type} [Field α] (N : ℕ) (xs : List (Option α)) : List (Option α) :=
  rollingAgg
    (fun w =>
      if 2 ≤ N then some (((w.map fun x => (x - w.sum / (N : α)) ^ 2).sum) / ((N : α) - 1))
      else none)
    N xs

/-- Annualized volatility column (lines 187-189): `sqrt(var) * sqrt(252)`;
`np.sqrt` of a negative argument would be NaN, modelled as `none`. -/
noncomputable def volColumn (N : ℕ) (xs : List (Option ℝ)) : List (Option ℝ) :=
  (rollVar N xs).map fun o =>
    o.bind fun v => if 0 ≤ v then some (Real.sqrt v * Real.sqrt 252) else none

/-- Number of defined (non-NaN) entries of a column. -/
def definedCount {α : Type} (xs : List (Option α)) : ℕ :=
  xs.countP fun o => o.isSome

/-! ### The data frame passed to `calculate_volatility` -/

/-- A pandas DataFrame as `calculate_volatility` sees it: a `Date` index, a
numeric `Close` column, and any further named columns. -/
structure Frame where
  dates : List ℤ
  close : List ℚ
  extra : List (String × List (Option ℝ))

/-- pandas column assignment `df[name] = col`: replace the column if the name
exists, otherwise append it on the right. -/
def setCol (f : Frame) (name : String) (col : List (Option ℝ)) : Frame :=
  if (∃ p ∈ f.extra, p.1 = name) then
    { f with extra := f.extra.map fun p => if p.1 = name then (name, col) else p }
  else
    { f with extra := f.extra ++ [(name, col)] }

/-- One iteration of the window loop of `calculate_volatility` (lines
181-189): writes `RollMean_label` and then `Vol_label`, both computed from the
`Returns` column `ret`. -/
noncomputable def volStep (ret : List (Option ℝ)) (acc : Frame)
    (w : String × ℕ) : Frame :=
  setCol (setCol acc ("RollMean_" ++ w.1) (rollMean w.2 ret))
    ("Vol_" ++ w.1) (volColumn w.2 ret)

/-- Shallow embedding of `calculate_volatility` (lines 155-191): writes the
`Returns` column, then for each configured window `(label, N)` writes
`RollMean_label` and `Vol_label`, and returns the (mutated) frame. -/
noncomputable def calculate_volatility (f : Frame) (windows : List (String × ℕ))
    (method : RetMethod) (isFred : Bool) : Frame :=
  windows.foldl (volStep (returnsColumn f.close method isFred))
    (setCol f "Returns" (returnsColumn f.close method isFred))

/-! ### Mahalanobis distance (mahalanobis_regime.py, lines 138-178)

The aligned matrix is a list of rows (dates in ascending order, identified by
their row index) with `k` columns; a cell is `none` when the value is NaN. -/

variable {k : ℕ}

/-- Extract a fully defined row, or `none` when any cell is NaN
(the `np.any(np.isnan(current_point))` check, line 158). -/
def seqRow (r : Fin k → Option ℚ) : Option (Fin k → ℚ) :=
  if h : ∀ a, (r a).isSome then some (fun a => (r a).get (h a)) else none

/-- Extract a fully defined block of rows, or `none` when any cell is NaN
(the `window_data.isna().any().any()` check, line 158). -/
def seqRows : List (Fin k → Option ℚ) → Option (List (Fin k → ℚ))
  | [] => some []
  | r :: rest =>
      match seqRow r with
      | none => none
      | some x => (seqRows rest).map (x :: ·)

/-- The trailing covariance window `df.iloc[i-W : i]` (line 154); when
`W ≤ i ≤ df.length` this is exactly the `W` rows strictly preceding row `i`. -/
def windowRows (df : List (Fin k → Option ℚ)) (W i : ℕ) : List (Fin k → Option ℚ) :=
  (df.drop (i - W)).take W

/-- Column-wise mean of the window (`window_data.mean()`, line 162). -/
def sampleMean (ws : List (Fin k → ℚ)) (W : ℕ) : Fin k → ℚ :=
  fun a => ((ws.map fun x => x a).sum) / (W : ℚ)

/-- Sample covariance of the window (`window_data.cov()`, line 163): pandas
uses the unbiased estimator, dividing by `W - 1`. -/
def sampleCov (ws : List (Fin k → ℚ)) (μ : Fin k → ℚ) (W : ℕ) :
    Matrix (Fin k) (Fin k) ℚ :=
  Matrix.of fun a b => ((ws.map fun x => (x a - μ a) * (x b - μ b)).sum) / ((W : ℚ) - 1)

/-- One candidate date of `calculate_mahalanobis_distance` (lines 152-176):
skip (`none`) when the window or the current row has a NaN or the covariance is
singular; otherwise the quadratic form `diff @ inv_cov @ diff.T` that the code
passes to `np.sqrt`.  `np.linalg.inv` raises `LinAlgError` exactly on a
singular matrix; for an invertible matrix it returns the inverse, here
`det⁻¹ • adjugate`. -/
def mahalStep (df : List (Fin k → Option ℚ)) (W i : ℕ) : Option ℚ :=
  match df[i]? with
  | none => none
  | some cur =>
      match seqRows (windowRows df W i), seqRow cur with
      | some ws, some x =>
          if _h : (sampleCov ws (sampleMean ws W) W).det ≠ 0 then
            some (Matrix.dotProduct
              (Matrix.vecMul (fun a => x a - sampleMean ws W a)
                (((sampleCov ws (sampleMean ws W) W).det)⁻¹ •
                  (sampleCov ws (sampleMean ws W) W).adjugate))
              (fun a => x a - sampleMean ws W a))
          else none
      | _, _ => none

/-- All (row index, quadratic form) pairs the loop on lines 152-176 produces:
the loop runs `i` over `range(W, len(df))` and keeps the non-skipped dates in
ascending order. -/
def mahalQuadForms (df : List (Fin k → Option ℚ)) (W : ℕ) : List (ℕ × ℚ) :=
  (List.range' W (df.length - W)).filterMap fun i =>
    (mahalStep df W i).map fun q => (i, q)

/-- Modelling of `np.sqrt` on a real scalar: NaN (`none`) on a negative
argument, the real square root otherwise. -/
noncomputable def npSqrt (q : ℚ) : Option ℝ :=
  if 0 ≤ q then some (Real.sqrt (q : ℝ)) else none

/-- Shallow embedding of `calculate_mahalanobis_distance` (lines 138-178):
the distance series as (row index, `np.sqrt` of the quadratic form) pairs. -/
noncomputable def calculate_mahalanobis_distance (df : List (Fin k → Option ℚ))
    (W : ℕ) : List (ℕ × Option ℝ) :=
  (mahalQuadForms df W).map fun p => (p.1, npSqrt p.2)

/-! ### Percentile assignment (mahalanobis_regime.py, lines 181-211) -/

/-- pandas `Series.rank(pct=True)` at a value `v` of the series `xs`: the
average 1-based rank of the tied block of `v` — the count of strictly smaller
entries plus half of (count of equal entries plus one) — divided by the number
of observations.  This is pandas' default `method='average'` rank. -/
def pandasRankPct (xs : List ℚ) (v : ℚ) : ℚ :=
  (((xs.countP fun x => decide (x < v)) : ℚ)
      + (((xs.countP fun x => decide (x = v)) : ℚ) + 1) / 2) / (xs.length : ℚ)

/-- The `percentile` column of `assign_percentile_buckets` (line 198):
`distances.rank(pct=True) * 100`, computed once over the whole series. -/
def percentileColumn (distances : List ℚ) : List ℚ :=
  distances.map fun v => pandasRankPct distances v * 100

/-! ### Chi-squared stress score (mahalanobis_regime.py, lines 214-231) -/

/-- Modelling of `scipy.stats.chi2.cdf(x, dof)`: the chi-squared distribution
with `dof` degrees of freedom is the Gamma distribution with shape `dof/2` and
rate `1/2`, and its CDF is the Mathlib CDF of that measure. -/
noncomputable def chi2cdf (x : ℝ) (dof : ℕ) : ℝ :=
  ProbabilityTheory.gammaCDFReal ((dof : ℝ) / 2) (1 / 2) x

/-- The continuous stress score of one distance (lines 227-229):
`pvalue = 1 - chi2.cdf(distance², dof)` and `stress = 1 - pvalue`. -/
noncomputable def stressScore (d : ℝ) (dof : ℕ) : ℝ :=
  1 - (1 - chi2cdf (d ^ 2) dof)

/-- Shallow embedding of `calculate_chi2_pvalue` (lines 214-231): elementwise
stress scores of the distance series. -/
noncomputable def calculate_chi2_pvalue (distances : List ℝ) (dof : ℕ) : List ℝ :=
  distances.map fun d => stressScore d dof

/-! ### Quartile assignment (volatility_analysis.py, lines 200-211) -/

/-- Shallow embedding of `assign_quartile`: `None` for a NaN value, otherwise
the first of the four labels whose inclusive upper bound admits the value. -/
def assign_quartile (value : Option ℚ) (q1 q2 q3 : ℚ) : Option String :=
  match value with
  | none => none
  | some v =>
      if v ≤ q1 then some "Q1 (Low)"
      else if v ≤ q2 then some "Q2 (Medium-Low)"
      else if v ≤ q3 then some "Q3 (Medium-High)"
      else some "Q4 (High)"

/-- Column access by name on the association list of named columns (pandas
`df[name]`): the first column with a matching name, `none` when absent. -/
def getCol (cols : List (String × List (Option ℝ))) (name : String) :
    Option (List (Option ℝ)) :=
  match cols with
  | [] => none
  | p :: rest => if p.1 = name then some p.2 else getCol rest name

/-! ## Theorems -/

/-- Auxiliary: counting entries `≤ v` splits into strictly-smaller and equal. -/
theorem countP_le_split (xs : List ℚ) (v : ℚ) :
    xs.countP (fun x => decide (x ≤ v)) =
      xs.countP (fun x => decide (x < v)) + xs.countP (fun x => decide (x = v)) := by
  induction xs with
  | nil => simp
  | cons a l ih =>
      simp only [List.countP_cons, ih]
      rcases lt_trichotomy a v with h | h | h
      · simp [h, h.le, h.ne]
        omega
      · simp [h, le_refl]
        omega
      · simp [not_le.mpr h, not_lt.mpr h.le, ne_of_gt h]

/-- Auxiliary: in a duplicate-free list, an element's equality count is one. -/
theorem countP_eq_of_nodup (xs : List ℚ) (hnd : xs.Nodup) (v : ℚ) (hv : v ∈ xs) :
    xs.countP (fun x => decide (x = v)) = 1 := by
  have h1 : xs.countP (fun x => decide (x = v)) = xs.count v := by
    rw [List.count]
    refine List.countP_congr ?_
    intro x _
    simp [beq_iff_eq]
  rw [h1]
  exact List.count_eq_one_of_mem hnd hv

/-- Auxiliary: the window slice used at candidate `i` has exactly `W` rows. -/
theorem windowRows_length (df : List (Fin k → Option ℚ)) (W i : ℕ)
    (hWi : W ≤ i) (hiR : i ≤ df.length) : (windowRows df W i).length = W := by
  simp only [windowRows, List.length_take, List.length_drop]
  omega

/-- Auxiliary: entry `j` of the window used at candidate `i` is row `i - W + j`
of the matrix, i.e. the window consists of the rows `[i-W, i)`. -/
theorem windowRows_getElem (df : List (Fin k → Option ℚ)) (W i j : ℕ)
    (hj : j < W) : (windowRows df W i)[j]? = df[i - W + j]? := by
  simp only [windowRows, List.getElem?_take, hj, if_true, List.getElem?_drop]

/-- Auxiliary: membership in the quadratic-form series means the index is a
candidate (in `range(W, len(df))`) and the per-date step produced the value. -/
theorem mem_mahalQuadForms {df : List (Fin k → Option ℚ)} {W i : ℕ} {q : ℚ} :
    (i, q) ∈ mahalQuadForms df W ↔
      i ∈ List.range' W (df.length - W) ∧ mahalStep df W i = some q := by
  unfold mahalQuadForms
  rw [List.mem_filterMap]
  constructor
  · rintro ⟨a, ha, heq⟩
    rcases Option.map_eq_some'.mp heq with ⟨q', hq', h2⟩
    rcases Prod.mk.injEq .. ▸ h2 with ⟨rfl, rfl⟩
    exact ⟨ha, hq'⟩
  · rintro ⟨ha, hstep⟩
    exact ⟨i, ha, by rw [hstep]; rfl⟩

/-- Auxiliary: the produced indices are the candidates whose step succeeded. -/
theorem mahalQuadForms_map_fst (df : List (Fin k → Option ℚ)) (W : ℕ) :
    (mahalQuadForms df W).map Prod.fst =
      (List.range' W (df.length - W)).filter fun i => (mahalStep df W i).isSome := by
  unfold mahalQuadForms
  induction List.range' W (df.length - W) with
  | nil => rfl
  | cons a l ih =>
      simp only [List.filterMap_cons, List.filter_cons]
      cases h : mahalStep df W a with
      | none => simpa [h] using ih
      | some q => simpa [h] using ih

/-- Auxiliary: the distance series and the quadratic-form series are indexed by
the same dates. -/
theorem calculate_mahalanobis_distance_map_fst (df : List (Fin k → Option ℚ))
    (W : ℕ) :
    (calculate_mahalanobis_distance df W).map Prod.fst =
      (mahalQuadForms df W).map Prod.fst := by
  unfold calculate_mahalanobis_distance
  rw [List.map_map]
  rfl

/-- C1: the stress engine evaluates exactly the candidate row indices
`i = W, …, R-1` (of which there are `R - W`; the produced dates are the
candidates that were not skipped), the covariance window at candidate `i` is
exactly the `W` rows `[i-W, i)` strictly preceding row `i`, and the distance
series is shorter than the input matrix by at least `W` rows. -/
theorem c1_candidates_window_length (df : List (Fin k → Option ℚ)) (W : ℕ) :
    ((mahalQuadForms df W).map Prod.fst =
        (List.range' W (df.length - W)).filter fun i => (mahalStep df W i).isSome)
    ∧ (List.range' W (df.length - W)).length = df.length - W
    ∧ (∀ p ∈ mahalQuadForms df W, W ≤ p.1 ∧ p.1 < df.length)
    ∧ (calculate_mahalanobis_distance df W).length ≤ df.length - W
    ∧ (∀ i, W ≤ i → i ≤ df.length →
        (windowRows df W i).length = W
        ∧ ∀ j, j < W → (windowRows df W i)[j]? = df[i - W + j]?) := by
  refine ⟨mahalQuadForms_map_fst df W, List.length_range' .., ?_, ?_, ?_⟩
  · rintro ⟨i, q⟩ hp
    rcases mem_mahalQuadForms.mp hp with ⟨hr, _⟩
    rcases List.mem_range'.mp hr with ⟨j, hj, rfl⟩
    constructor
    · omega
    · omega
  · calc (calculate_mahalanobis_distance df W).length
        = (mahalQuadForms df W).length := List.length_map ..
      _ ≤ (List.range' W (df.length - W)).length := List.length_filterMap_le ..
      _ = df.length - W := List.length_range' ..
  · intro i hWi hiR
    exact ⟨windowRows_length df W i hWi hiR, fun j hj => windowRows_getElem df W i j hj⟩

set_option maxRecDepth 4000 in
/-- C1 witness: a 300-row, 1-column matrix with covariance window 252 has
exactly `300 - 252 = 48` candidate dates, the distance series has at most 48
entries, and the window at candidate 252 has 252 rows, starting at row 0. -/
theorem c1_candidates_window_length_witness :
    (List.range' 252 (300 - 252)).length = 48
    ∧ (calculate_mahalanobis_distance
        (List.replicate 300 (fun _ : Fin 1 => (none : Option ℚ))) 252).length ≤ 48
    ∧ (windowRows (List.replicate 300 (fun _ : Fin 1 => (none : Option ℚ)))
        252 252).length = 252
    ∧ (windowRows (List.replicate 300 (fun _ : Fin 1 => (none : Option ℚ)))
        252 252)[0]? =
        (List.replicate 300 (fun _ : Fin 1 => (none : Option ℚ)))[0]? := by
  have h := c1_candidates_window_length
    (List.replicate 300 (fun _ : Fin 1 => (none : Option ℚ))) 252
  have hlen : (List.replicate 300 (fun _ : Fin 1 => (none : Option ℚ))).length = 300 :=
    List.length_replicate ..
  have h5 := h.2.2.2.2 252 (le_refl 252) (by rw [hlen]; norm_num)
  refine ⟨?_, ?_, h5.1, ?_⟩
  · rw [List.length_range' ..]
  · have := h.2.2.2.1
    rwa [hlen] at this
  · have h6 := h5.2 0 (by norm_num)
    have h0 : 252 - 252 + 0 = 0 := by norm_num
    rwa [h0] at h6

/-- Auxiliary: the per-date step is skipped (`none`) whenever the window has a
NaN, the current row has a NaN, or the window covariance is singular. -/
theorem mahalStep_eq_none (df : List (Fin k → Option ℚ)) (W i : ℕ)
    (h : seqRows (windowRows df W i) = none
      ∨ (∃ cur, df[i]? = some cur ∧ seqRow cur = none)
      ∨ (∃ ws, seqRows (windowRows df W i) = some ws
          ∧ (sampleCov ws (sampleMean ws W) W).det = 0)) :
    mahalStep df W i = none := by
  unfold mahalStep
  split
  · rfl
  next cur hdf =>
    split
    next ws x hws2 hx2 =>
      rcases h with h1 | ⟨cur2, hcur2, hrow2⟩ | ⟨ws2, hws3, hdet3⟩
      · rw [h1] at hws2
        exact absurd hws2 (by simp)
      · rw [hdf] at hcur2
        have hc : cur = cur2 := by injection hcur2
        rw [← hc, hx2] at hrow2
        exact absurd hrow2 (by simp)
      · rw [hws3] at hws2
        have hw : ws2 = ws := by injection hws2
        subst hw
        rw [dif_neg (not_not_intro hdet3)]
    next => rfl

/-- C7: a candidate date whose trailing window has a missing value, whose
current row has a NaN, or whose window covariance is singular produces no
distance entry; if every candidate date is skipped, or the matrix has at most
`W` rows, the engine returns the empty distance series (a value, not an
error). -/
theorem c7_skip_and_empty (df : List (Fin k → Option ℚ)) (W : ℕ) :
    (∀ i,
      (seqRows (windowRows df W i) = none
        ∨ (∃ cur, df[i]? = some cur ∧ seqRow cur = none)
        ∨ (∃ ws, seqRows (windowRows df W i) = some ws
            ∧ (sampleCov ws (sampleMean ws W) W).det = 0)) →
      i ∉ (calculate_mahalanobis_distance df W).map Prod.fst)
    ∧ ((∀ i ∈ List.range' W (df.length - W), mahalStep df W i = none) →
        calculate_mahalanobis_distance df W = [])
    ∧ (df.length ≤ W → calculate_mahalanobis_distance df W = []) := by
  have hempty : (∀ i ∈ List.range' W (df.length - W), mahalStep df W i = none) →
      calculate_mahalanobis_distance df W = [] := by
    intro hall
    unfold calculate_mahalanobis_distance mahalQuadForms
    rw [List.filterMap_eq_nil_iff.mpr fun a ha => by rw [hall a ha]; rfl]
    rfl
  refine ⟨?_, hempty, ?_⟩
  · intro i hskip hmem
    rw [calculate_mahalanobis_distance_map_fst] at hmem
    rcases List.mem_map.mp hmem with ⟨⟨i', q⟩, hpq, hfst⟩
    rcases hfst
    exact Option.some_ne_none q
      ((mem_mahalQuadForms.mp hpq).2.symm.trans (mahalStep_eq_none df W i' hskip))
  · intro hWR
    apply hempty
    intro i hi
    rcases List.mem_range'.mp hi with ⟨j, hj, rfl⟩
    omega

/-- C7 witness: a 3-row, 1-column matrix of constant value 1 with window 2 —
the window `[1, 1]` is constant, so its covariance is singular (determinant
zero), the only candidate date 2 is skipped, and the engine returns the empty
series. -/
theorem c7_skip_and_empty_witness :
    (2 ∉ (calculate_mahalanobis_distance
        [fun _ : Fin 1 => (some 1 : Option ℚ), fun _ => some 1, fun _ => some 1]
        2).map Prod.fst)
    ∧ calculate_mahalanobis_distance
        [fun _ : Fin 1 => (some 1 : Option ℚ), fun _ => some 1, fun _ => some 1]
        2 = [] := by
  have h := c7_skip_and_empty
    [fun _ : Fin 1 => (some 1 : Option ℚ), fun _ => some 1, fun _ => some 1] 2
  have hws : seqRows (windowRows
      [fun _ : Fin 1 => (some 1 : Option ℚ), fun _ => some 1, fun _ => some 1] 2 2)
      = some [fun _ => 1, fun _ => 1] := by
    simp [windowRows, seqRows, seqRow]
  have hdet : (sampleCov [fun _ : Fin 1 => (1 : ℚ), fun _ => 1]
      (sampleMean [fun _ : Fin 1 => (1 : ℚ), fun _ => 1] 2) 2).det = 0 := by
    rw [Matrix.det_fin_one]
    simp [sampleCov, sampleMean]
  have hskip := h.1 2 (Or.inr (Or.inr ⟨[fun _ => 1, fun _ => 1], hws, hdet⟩))
  refine ⟨hskip, h.2.1 ?_⟩
  intro i hi
  have hlen3 : ([fun _ : Fin 1 => (some 1 : Option ℚ), fun _ => some 1,
      fun _ => some 1] : List (Fin 1 → Option ℚ)).length = 3 := rfl
  rw [hlen3] at hi
  have hi2 : i = 2 := by
    rcases List.mem_range'.mp hi with ⟨j, hj, rfl⟩
    omega
  subst hi2
  apply mahalStep_eq_none
  exact Or.inr (Or.inr ⟨[fun _ => 1, fun _ => 1], hws, hdet⟩)

/-- Auxiliary: the quadratic form of a scaled Gram matrix of centered rows is
the scale times a sum of squares. -/
theorem gram_quadform_eq (c : ℚ) (μ v : Fin k → ℚ) (ws : List (Fin k → ℚ)) :
    Matrix.dotProduct v
      ((Matrix.of fun a b =>
        c * ((ws.map fun x => (x a - μ a) * (x b - μ b)).sum)).mulVec v)
      = c * ((ws.map fun x =>
          (Finset.univ.sum fun a => v a * (x a - μ a)) ^ 2).sum) := by
  induction ws with
  | nil => simp [Matrix.dotProduct, Matrix.mulVec]
  | cons x ws ih =>
      have hsplit :
          (Matrix.of fun a b =>
              c * (((x :: ws).map fun y => (y a - μ a) * (y b - μ b)).sum))
            = (Matrix.of fun a b => c * ((x a - μ a) * (x b - μ b)))
              + (Matrix.of fun a b =>
                  c * ((ws.map fun y => (y a - μ a) * (y b - μ b)).sum)) := by
        ext a b
        simp [mul_add]
      have h1 : Matrix.dotProduct v
          ((Matrix.of fun a b => c * ((x a - μ a) * (x b - μ b))).mulVec v)
          = c * ((Finset.univ.sum fun a => v a * (x a - μ a)) ^ 2) := by
        have hrow : ∀ a, ((Matrix.of fun a b =>
              c * ((x a - μ a) * (x b - μ b))).mulVec v) a
            = c * (x a - μ a) * (Finset.univ.sum fun b => (x b - μ b) * v b) := by
          intro a
          simp only [Matrix.mulVec, Matrix.dotProduct, Matrix.of_apply,
            Finset.mul_sum]
          refine Finset.sum_congr rfl fun b _ => by ring
        have step1 : Matrix.dotProduct v
            ((Matrix.of fun a b => c * ((x a - μ a) * (x b - μ b))).mulVec v)
            = Finset.univ.sum fun a => v a * (x a - μ a)
                * (c * (Finset.univ.sum fun b => (x b - μ b) * v b)) := by
          refine Finset.sum_congr rfl fun a _ => ?_
          rw [hrow a]
          ring
        rw [step1, ← Finset.sum_mul]
        have hT : (Finset.univ.sum fun b => (x b - μ b) * v b)
            = Finset.univ.sum fun a => v a * (x a - μ a) :=
          Finset.sum_congr rfl fun b _ => mul_comm _ _
        rw [hT, sq]
        ring
      rw [hsplit, Matrix.add_mulVec, Matrix.dotProduct_add, ih, h1]
      simp only [List.map_cons, List.sum_cons, mul_add]

/-- Auxiliary: the sample covariance matrix is symmetric. -/
theorem sampleCov_symm (ws : List (Fin k → ℚ)) (μ : Fin k → ℚ) (W : ℕ)
    (a b : Fin k) : sampleCov ws μ W a b = sampleCov ws μ W b a := by
  unfold sampleCov
  simp only [Matrix.of_apply]
  have hfun : (fun x : Fin k → ℚ => (x a - μ a) * (x b - μ b))
      = fun x => (x b - μ b) * (x a - μ a) := funext fun x => mul_comm _ _
  rw [hfun]

/-- Auxiliary: for a symmetric matrix, row-vector and column-vector
multiplication agree. -/
theorem vecMul_eq_mulVec_of_symm (M : Matrix (Fin k) (Fin k) ℚ)
    (hsym : ∀ a b, M a b = M b a) (u : Fin k → ℚ) :
    Matrix.vecMul u M = M.mulVec u := by
  funext b
  simp only [Matrix.vecMul, Matrix.mulVec, Matrix.dotProduct]
  refine Finset.sum_congr rfl fun a _ => ?_
  rw [hsym a b]
  ring

/-- Auxiliary: the sample covariance as a scaled Gram matrix. -/
theorem sampleCov_eq_gram (ws : List (Fin k → ℚ)) (μ : Fin k → ℚ) (W : ℕ) :
    sampleCov ws μ W = Matrix.of fun a b =>
      ((W : ℚ) - 1)⁻¹ * ((ws.map fun x => (x a - μ a) * (x b - μ b)).sum) := by
  ext a b
  simp only [sampleCov, Matrix.of_apply]
  rw [div_eq_mul_inv, mul_comm]

/-- Auxiliary: anatomy of a successful per-date step — the data it extracted,
non-singularity of its covariance, and the quadratic form it produced. -/
theorem mahalStep_some_inv (df : List (Fin k → Option ℚ)) (W i : ℕ) (q : ℚ)
    (hstep : mahalStep df W i = some q) :
    ∃ cur ws x, df[i]? = some cur
      ∧ seqRows (windowRows df W i) = some ws
      ∧ seqRow cur = some x
      ∧ (sampleCov ws (sampleMean ws W) W).det ≠ 0
      ∧ q = Matrix.dotProduct
          (Matrix.vecMul (fun a => x a - sampleMean ws W a)
            (((sampleCov ws (sampleMean ws W) W).det)⁻¹ •
              (sampleCov ws (sampleMean ws W) W).adjugate))
          (fun a => x a - sampleMean ws W a) := by
  unfold mahalStep at hstep
  split at hstep
  · exact absurd hstep (by simp)
  next cur hdf =>
    split at hstep
    next ws x hws hx =>
      split at hstep
      next hdet =>
        exact ⟨cur, ws, x, hdf, hws, hx, hdet, (Option.some.inj hstep).symm⟩
      next hdet => exact absurd hstep (by simp)
    next => exact absurd hstep (by simp)

/-- Auxiliary: the per-date step succeeds, with the quadratic form of the
extracted data, when the window and the current row are NaN-free and the
covariance is invertible. -/
theorem mahalStep_eq_some (df : List (Fin k → Option ℚ)) (W i : ℕ)
    (cur : Fin k → Option ℚ) (ws : List (Fin k → ℚ)) (x : Fin k → ℚ)
    (hdf : df[i]? = some cur)
    (hws : seqRows (windowRows df W i) = some ws)
    (hx : seqRow cur = some x)
    (hdet : (sampleCov ws (sampleMean ws W) W).det ≠ 0) :
    mahalStep df W i = some (Matrix.dotProduct
      (Matrix.vecMul (fun a => x a - sampleMean ws W a)
        (((sampleCov ws (sampleMean ws W) W).det)⁻¹ •
          (sampleCov ws (sampleMean ws W) W).adjugate))
      (fun a => x a - sampleMean ws W a)) := by
  unfold mahalStep
  simp only [hdf, hws, hx]
  rw [dif_pos hdet]

/-- C2: every quadratic form the engine passes to `np.sqrt` is non-negative
(in exact arithmetic an invertible sample covariance is positive definite), so
the square root never receives a negative argument and every produced distance
is a defined, non-negative scalar. -/
theorem c2_distance_nonneg (df : List (Fin k → Option ℚ)) (W i : ℕ) (q : ℚ)
    (hmem : (i, q) ∈ mahalQuadForms df W) :
    0 ≤ q
    ∧ npSqrt q = some (Real.sqrt (q : ℝ))
    ∧ (i, npSqrt q) ∈ calculate_mahalanobis_distance df W
    ∧ ∀ r : ℝ, npSqrt q = some r → 0 ≤ r := by
  rcases mem_mahalQuadForms.mp hmem with ⟨_, hstep⟩
  rcases mahalStep_some_inv df W i q hstep with
    ⟨cur, ws, x, _hdf, hws, _hx, hdet, hq⟩
  set μ := sampleMean ws W with hμ
  set cov := sampleCov ws μ W with hcov
  set d : Fin k → ℚ := fun a => x a - μ a with hd
  set icov := (cov.det)⁻¹ • cov.adjugate with hicov
  set u := Matrix.vecMul d icov with hu
  have hone : icov * cov = 1 := by
    rw [hicov, Matrix.smul_mul, Matrix.adjugate_mul, smul_smul,
      inv_mul_cancel₀ hdet, one_smul]
  have hdu : Matrix.vecMul u cov = d := by
    rw [hu, Matrix.vecMul_vecMul, hone, Matrix.vecMul_one]
  have hq2 : q = Matrix.dotProduct u (cov.mulVec u) := by
    rw [hq, ← hdu, vecMul_eq_mulVec_of_symm cov (sampleCov_symm ws μ W) u]
  have hgram : q = ((W : ℚ) - 1)⁻¹
      * ((ws.map fun y =>
          (Finset.univ.sum fun a => u a * (y a - μ a)) ^ 2).sum) := by
    rw [hq2, hcov, sampleCov_eq_gram, gram_quadform_eq]
  have hsumsq : 0 ≤ (ws.map fun y =>
      (Finset.univ.sum fun a => u a * (y a - μ a)) ^ 2).sum := by
    refine List.sum_nonneg ?_
    intro z hz
    rcases List.mem_map.mp hz with ⟨y, _, rfl⟩
    exact sq_nonneg _
  have hq0 : 0 ≤ q := by
    rcases Nat.eq_zero_or_pos W with hW | hW
    · have hwr : windowRows df W i = [] := by
        rw [hW]
        simp [windowRows]
      rw [hwr] at hws
      have hws0 : ws = [] := by
        have : (some [] : Option (List (Fin k → ℚ))) = some ws := hws ▸ rfl
        exact (Option.some.inj this).symm
      rw [hgram, hws0]
      simp
    · have hc : 0 ≤ ((W : ℚ) - 1)⁻¹ := by
        have : (1 : ℚ) ≤ (W : ℚ) := by exact_mod_cast hW
        have h0 : 0 ≤ (W : ℚ) - 1 := by linarith
        exact inv_nonneg.mpr h0
      rw [hgram]
      exact mul_nonneg hc hsumsq
  have hsq : npSqrt q = some (Real.sqrt (q : ℝ)) := by
    rw [npSqrt, if_pos hq0]
  refine ⟨hq0, hsq, ?_, ?_⟩
  · exact List.mem_map.mpr ⟨(i, q), hmem, rfl⟩
  · intro r hr
    rw [hsq] at hr
    rw [← Option.some.inj hr]
    exact Real.sqrt_nonneg _

/-- C2 witness: the 1-column matrix with rows 1, 3, 4 and window 2 produces at
candidate date 2 the quadratic form `(4-2)²/2 = 2 ≥ 0`, whose square root is
defined and non-negative. -/
theorem c2_distance_nonneg_witness :
    ((2 : ℕ), (2 : ℚ)) ∈ mahalQuadForms
      [fun _ : Fin 1 => (some 1 : Option ℚ), fun _ => some 3, fun _ => some 4] 2
    ∧ (0 : ℚ) ≤ 2 ∧ npSqrt 2 = some (Real.sqrt ((2 : ℚ) : ℝ)) := by
  have hws : seqRows (windowRows
      [fun _ : Fin 1 => (some 1 : Option ℚ), fun _ => some 3, fun _ => some 4] 2 2)
      = some [fun _ => 1, fun _ => 3] := by
    simp [windowRows, seqRows, seqRow]
  have hx : seqRow (fun _ : Fin 1 => (some 4 : Option ℚ)) = some (fun _ => 4) := by
    simp [seqRow]
  have hmean : sampleMean [fun _ : Fin 1 => (1 : ℚ), fun _ => 3] 2 = fun _ => 2 := by
    funext a
    simp [sampleMean]
    norm_num
  have hcov : sampleCov [fun _ : Fin 1 => (1 : ℚ), fun _ => 3]
      (sampleMean [fun _ : Fin 1 => (1 : ℚ), fun _ => 3] 2) 2
      = Matrix.of fun _ _ => 2 := by
    rw [hmean]
    ext a b
    simp [sampleCov]
    norm_num
  have hdet : (sampleCov [fun _ : Fin 1 => (1 : ℚ), fun _ => 3]
      (sampleMean [fun _ : Fin 1 => (1 : ℚ), fun _ => 3] 2) 2).det = 2 := by
    rw [hcov, Matrix.det_fin_one, Matrix.of_apply]
  have hstep := mahalStep_eq_some
    [fun _ : Fin 1 => (some 1 : Option ℚ), fun _ => some 3, fun _ => some 4] 2 2
    (fun _ => some 4) [fun _ => 1, fun _ => 3] (fun _ => 4)
    rfl hws hx (by rw [hdet]; norm_num)
  have hq : Matrix.dotProduct
      (Matrix.vecMul
        (fun a => (fun _ : Fin 1 => (4 : ℚ)) a
          - sampleMean [fun _ : Fin 1 => (1 : ℚ), fun _ => 3] 2 a)
        (((sampleCov [fun _ : Fin 1 => (1 : ℚ), fun _ => 3]
            (sampleMean [fun _ : Fin 1 => (1 : ℚ), fun _ => 3] 2) 2).det)⁻¹ •
          (sampleCov [fun _ : Fin 1 => (1 : ℚ), fun _ => 3]
            (sampleMean [fun _ : Fin 1 => (1 : ℚ), fun _ => 3] 2) 2).adjugate))
      (fun a => (fun _ : Fin 1 => (4 : ℚ)) a
        - sampleMean [fun _ : Fin 1 => (1 : ℚ), fun _ => 3] 2 a) = 2 := by
    rw [hdet, hcov, hmean, Matrix.adjugate_fin_one]
    simp [Matrix.dotProduct, Matrix.vecMul, Matrix.smul_apply, Matrix.one_apply,
      Fin.sum_univ_one]
    norm_num
  have hsome : mahalStep
      [fun _ : Fin 1 => (some 1 : Option ℚ), fun _ => some 3, fun _ => some 4] 2 2
      = some 2 := hstep.trans (congrArg some hq)
  have hmem : ((2 : ℕ), (2 : ℚ)) ∈ mahalQuadForms
      [fun _ : Fin 1 => (some 1 : Option ℚ), fun _ => some 3, fun _ => some 4] 2 :=
    mem_mahalQuadForms.mpr ⟨by simp [List.mem_range'], hsome⟩
  exact ⟨hmem, (c2_distance_nonneg _ 2 2 2 hmem).1,
    (c2_distance_nonneg _ 2 2 2 hmem).2.1⟩

/-- C3 (corrected statement): over a duplicate-free distance series, the
`percentile` column of `assign_percentile_buckets` at index `i` equals
100 times the fraction of distances that are `≤ distance[i]`, computed once
over the entire series. -/
theorem c3_percentile_rank (xs : List ℚ) (hnd : xs.Nodup) (i : ℕ)
    (hi : i < xs.length) :
    (percentileColumn xs)[i]? =
      some (100 * ((xs.countP fun x => decide (x ≤ xs[i])) : ℚ) / xs.length) := by
  have hmem : xs[i] ∈ xs := xs.getElem_mem hi
  have hlenQ : (xs.length : ℚ) ≠ 0 := by
    have hne : xs ≠ [] := List.ne_nil_of_mem hmem
    have hpos : 0 < xs.length := List.length_pos.mpr hne
    exact_mod_cast hpos.ne'
  have key : pandasRankPct xs xs[i] * 100 =
      100 * ((xs.countP fun x => decide (x ≤ xs[i])) : ℚ) / xs.length := by
    unfold pandasRankPct
    rw [countP_le_split xs xs[i], countP_eq_of_nodup xs hnd xs[i] hmem]
    push_cast
    field_simp
    ring
  simp only [percentileColumn, List.getElem?_map, List.getElem?_eq_getElem hi,
    Option.map_some']
  rw [key]

/-- C3 witness: the corrected statement applied to the concrete duplicate-free
series `[1, 2]` at index 0. -/
theorem c3_percentile_rank_witness :
    ([1, 2] : List ℚ).Nodup ∧ 0 < ([1, 2] : List ℚ).length ∧
      (percentileColumn [1, 2])[0]? =
        some (100 * ((([1, 2] : List ℚ).countP fun x => decide (x ≤ 1)) : ℚ) / 2) :=
  ⟨by decide, by decide, c3_percentile_rank [1, 2] (by decide) 0 (by decide)⟩

/-- C3 counterexample: with tied distances `[1, 1]`, the code's percentile
(pandas average-rank convention) is 75 for both observations, while 100 times
the fraction of distances `≤ 1` is 100; so the claim as stated fails on ties. -/
theorem c3_counterexample :
    percentileColumn [1, 1] = [75, 75]
    ∧ 100 * ((([1, 1] : List ℚ).countP fun x => decide (x ≤ 1)) : ℚ)
        / ([1, 1] : List ℚ).length = 100
    ∧ (75 : ℚ) ≠ 100 := by
  refine ⟨?_, ?_, by norm_num⟩
  · simp only [percentileColumn, pandasRankPct, List.map_cons, List.map_nil,
      List.countP_cons, List.countP_nil, List.length_cons, List.length_nil]
    norm_num
  · simp only [List.countP_cons, List.countP_nil, List.length_cons, List.length_nil]
    norm_num

/-- C4: the continuous stress score equals `1 - pvalue` with
`pvalue = 1 - chi2.cdf(distance², dof)`, every score `calculate_chi2_pvalue`
produces lies in `[0, 1]`, and for fixed degrees of freedom the score is
monotonically non-decreasing in the distance. -/
theorem c4_stress_score_monotone (dof : ℕ) (d1 d2 : ℝ) (h1 : 0 ≤ d1)
    (h12 : d1 < d2) :
    stressScore d1 dof = chi2cdf (d1 ^ 2) dof
    ∧ (∀ ds : List ℝ, ∀ s ∈ calculate_chi2_pvalue ds dof, 0 ≤ s ∧ s ≤ 1)
    ∧ stressScore d1 dof ≤ stressScore d2 dof := by
  have hscore : ∀ d : ℝ, stressScore d dof = chi2cdf (d ^ 2) dof := by
    intro d
    unfold stressScore
    ring
  have hbounds : ∀ x : ℝ, 0 ≤ chi2cdf x dof ∧ chi2cdf x dof ≤ 1 := by
    intro x
    exact ⟨ProbabilityTheory.cdf_nonneg _ _, ProbabilityTheory.cdf_le_one _ _⟩
  refine ⟨hscore d1, ?_, ?_⟩
  · intro ds s hs
    rcases List.mem_map.mp hs with ⟨d, _, rfl⟩
    rw [hscore d]
    exact hbounds _
  · rw [hscore d1, hscore d2]
    exact ProbabilityTheory.monotone_cdf _ (by nlinarith)

/-- C4 witness: the monotonicity statement applied at distances 0 and 1 with
four degrees of freedom. -/
theorem c4_stress_score_monotone_witness :
    (0 : ℝ) ≤ 0 ∧ (0 : ℝ) < 1 ∧ stressScore 0 4 ≤ stressScore 1 4 :=
  ⟨le_refl 0, by norm_num,
    (c4_stress_score_monotone 4 0 1 (le_refl 0) (by norm_num)).2.2⟩

/-- C6: against ordered breakpoints `q1 ≤ q2 ≤ q3`, `assign_quartile` realizes
the inclusive-upper-bound partition — `v ≤ q1` gives Q1, `q1 < v ≤ q2` gives
Q2, `q2 < v ≤ q3` gives Q3, `q3 < v` gives Q4 — every defined value receives
one of the four labels, and a value exactly equal to `q2` (with `q1 < q2`) is
assigned Q2, not Q3. -/
theorem c6_assign_quartile_partition (q1 q2 q3 v : ℚ) (h12 : q1 ≤ q2)
    (h23 : q2 ≤ q3) :
    (v ≤ q1 → assign_quartile (some v) q1 q2 q3 = some "Q1 (Low)")
    ∧ (q1 < v → v ≤ q2 → assign_quartile (some v) q1 q2 q3 = some "Q2 (Medium-Low)")
    ∧ (q2 < v → v ≤ q3 → assign_quartile (some v) q1 q2 q3 = some "Q3 (Medium-High)")
    ∧ (q3 < v → assign_quartile (some v) q1 q2 q3 = some "Q4 (High)")
    ∧ (assign_quartile (some v) q1 q2 q3 = some "Q1 (Low)"
        ∨ assign_quartile (some v) q1 q2 q3 = some "Q2 (Medium-Low)"
        ∨ assign_quartile (some v) q1 q2 q3 = some "Q3 (Medium-High)"
        ∨ assign_quartile (some v) q1 q2 q3 = some "Q4 (High)")
    ∧ (q1 < q2 → v = q2 → assign_quartile (some v) q1 q2 q3 = some "Q2 (Medium-Low)") := by
  simp only [assign_quartile]
  refine ⟨?_, ?_, ?_, ?_, ?_, ?_⟩
  · intro h
    rw [if_pos h]
  · intro hgt hle
    rw [if_neg (by linarith), if_pos hle]
  · intro hgt hle
    rw [if_neg (by linarith), if_neg (by linarith), if_pos hle]
  · intro hgt
    rw [if_neg (by linarith), if_neg (by linarith), if_neg (by linarith)]
  · split_ifs <;> simp
  · intro hlt hv
    rw [if_neg (by linarith), if_pos (by linarith)]

/-- C6 witness: breakpoints 1 ≤ 2 ≤ 3 and the boundary value 2 is labelled
Q2 (Medium-Low). -/
theorem c6_assign_quartile_partition_witness :
    (1 : ℚ) ≤ 2 ∧ (2 : ℚ) ≤ 3 ∧
      assign_quartile (some 2) 1 2 3 = some "Q2 (Medium-Low)" :=
  ⟨by norm_num, by norm_num,
    (c6_assign_quartile_partition 1 2 3 2 (by norm_num) (by norm_num)).2.2.2.2.2
      (by norm_num) rfl⟩

/-- C10: for every breakpoint triple, `assign_quartile` returns `None` on an
undefined (NaN) value, and a quartile label is produced only for defined
values. -/
theorem c10_assign_quartile_nan (q1 q2 q3 : ℚ) :
    assign_quartile none q1 q2 q3 = none
    ∧ ∀ x : Option ℚ, (assign_quartile x q1 q2 q3).isSome → x.isSome := by
  refine ⟨rfl, ?_⟩
  intro x h
  cases x with
  | none => simp [assign_quartile] at h
  | some v => rfl

/-- C10 witness: the NaN case and a defined case at breakpoints 1, 2, 3. -/
theorem c10_assign_quartile_nan_witness :
    assign_quartile none 1 2 3 = none
    ∧ ((assign_quartile (some 5) 1 2 3).isSome → (some (5 : ℚ)).isSome) :=
  ⟨(c10_assign_quartile_nan 1 2 3).1, (c10_assign_quartile_nan 1 2 3).2 (some 5)⟩

/-- Auxiliary: entry `t` of the `Returns` column, unevaluated. -/
theorem returnsColumn_getElem (close : List ℚ) (m : RetMethod) (f : Bool)
    (t : ℕ) (ht : t < close.length) :
    (returnsColumn close m f)[t]? = some (if t = 0 then none
      else match close[t-1]?, close[t]? with
        | some p, some c => retStep m f p c
        | _, _ => none) := by
  unfold returnsColumn
  rw [List.getElem?_map, List.getElem?_range ht]
  rfl

/-- C8: the return series is computed from consecutive `Close` values — log
method gives `ln(cur/prev)`, difference-scaled on yields gives
`100*(cur-prev)`, difference-scaled on prices gives `10000*(cur-prev)/prev` —
and with fewer than 2 observations the return series has no defined entry
(no exception is raised). -/
theorem c8_return_formulas :
    (∀ (close : List ℚ) (fd : Bool) (t : ℕ), 1 ≤ t → t < close.length →
      ∀ p c : ℚ, close[t-1]? = some p → close[t]? = some c → 0 < p → 0 < c →
        (returnsColumn close RetMethod.log fd)[t]? =
          some (some (Real.log ((c : ℝ) / (p : ℝ)))))
    ∧ (∀ (close : List ℚ) (t : ℕ), 1 ≤ t → t < close.length →
      ∀ p c : ℚ, close[t-1]? = some p → close[t]? = some c →
        (returnsColumn close RetMethod.bps true)[t]? =
          some (some (100 * ((c : ℝ) - (p : ℝ)))))
    ∧ (∀ (close : List ℚ) (t : ℕ), 1 ≤ t → t < close.length →
      ∀ p c : ℚ, close[t-1]? = some p → close[t]? = some c → p ≠ 0 →
        (returnsColumn close RetMethod.bps false)[t]? =
          some (some (10000 * ((c : ℝ) - (p : ℝ)) / (p : ℝ))))
    ∧ (∀ (close : List ℚ) (m : RetMethod) (fd : Bool), close.length < 2 →
        definedCount (returnsColumn close m fd) = 0) := by
  have hbase : ∀ (close : List ℚ) (m : RetMethod) (fd : Bool) (t : ℕ),
      1 ≤ t → (ht : t < close.length) →
      ∀ p c : ℚ, close[t-1]? = some p → close[t]? = some c →
        (returnsColumn close m fd)[t]? = some (retStep m fd p c) := by
    intro close m fd t ht1 ht p c hp hc
    rw [returnsColumn_getElem close m fd t ht, if_neg (by omega)]
    simp only [hp, hc]
  refine ⟨?_, ?_, ?_, ?_⟩
  · intro close fd t ht1 ht p c hp hc hpp hcc
    rw [hbase close RetMethod.log fd t ht1 ht p c hp hc]
    simp [retStep, hpp, hcc]
  · intro close t ht1 ht p c hp hc
    rw [hbase close RetMethod.bps true t ht1 ht p c hp hc]
    simp [retStep]
  · intro close t ht1 ht p c hp hc hp0
    rw [hbase close RetMethod.bps false t ht1 ht p c hp hc]
    simp [retStep, hp0]
  · intro close m fd hlen
    match close with
    | [] => rfl
    | [a] => rfl
    | a :: b :: rest =>
        exact absurd hlen (by simp [List.length_cons])

/-- C8 witness: each formula at a concrete two-point series, and the
single-observation series yields no defined return. -/
theorem c8_return_formulas_witness :
    (returnsColumn [100, 102] RetMethod.log false)[1]? =
      some (some (Real.log (((102 : ℚ) : ℝ) / ((100 : ℚ) : ℝ))))
    ∧ (returnsColumn [1, 2] RetMethod.bps true)[1]? =
      some (some (100 * (((2 : ℚ) : ℝ) - ((1 : ℚ) : ℝ))))
    ∧ (returnsColumn [100, 102] RetMethod.bps false)[1]? =
      some (some (10000 * (((102 : ℚ) : ℝ) - ((100 : ℚ) : ℝ)) / ((100 : ℚ) : ℝ)))
    ∧ definedCount (returnsColumn [5] RetMethod.log false) = 0 :=
  ⟨c8_return_formulas.1 [100, 102] false 1 (by norm_num) (by norm_num)
      100 102 rfl rfl (by norm_num) (by norm_num),
    c8_return_formulas.2.1 [1, 2] 1 (by norm_num) (by norm_num)
      1 2 rfl rfl,
    c8_return_formulas.2.2.1 [100, 102] 1 (by norm_num) (by norm_num)
      100 102 rfl rfl (by norm_num),
    c8_return_formulas.2.2.2 [5] RetMethod.log false (by norm_num)⟩

/-- Auxiliary: `setCol` leaves the `Date` index and the `Close` column
untouched. -/
theorem setCol_dates_close (f : Frame) (n : String) (c : List (Option ℝ)) :
    (setCol f n c).dates = f.dates ∧ (setCol f n c).close = f.close := by
  unfold setCol
  split <;> exact ⟨rfl, rfl⟩

/-- Auxiliary: replacing a column name leaves lookups of other names alone. -/
theorem getCol_map_replace_ne (l : List (String × List (Option ℝ)))
    (n nm : String) (c : List (Option ℝ)) (h : nm ≠ n) :
    getCol (l.map fun p => if p.1 = n then (n, c) else p) nm = getCol l nm := by
  induction l with
  | nil => rfl
  | cons p l ih =>
      by_cases hp : p.1 = n
      · simp only [List.map_cons, if_pos hp, getCol]
        rw [if_neg (fun hh : n = nm => h hh.symm),
          if_neg (fun hh : p.1 = nm => h (hp ▸ hh).symm)]
        exact ih
      · simp only [List.map_cons, if_neg hp, getCol]
        by_cases hnm : p.1 = nm
        · rw [if_pos hnm, if_pos hnm]
        · rw [if_neg hnm, if_neg hnm]
          exact ih

/-- Auxiliary: replacing a present column name makes lookups of it return the
new column. -/
theorem getCol_map_replace_self (l : List (String × List (Option ℝ)))
    (n : String) (c : List (Option ℝ)) (hex : ∃ p ∈ l, p.1 = n) :
    getCol (l.map fun p => if p.1 = n then (n, c) else p) n = some c := by
  induction l with
  | nil => exact absurd hex (by simp)
  | cons p l ih =>
      by_cases hp : p.1 = n
      · simp only [List.map_cons, if_pos hp, getCol]
        simp
      · simp only [List.map_cons, if_neg hp, getCol]
        refine ih ?_
        rcases hex with ⟨q, hq, hqn⟩
        rcases List.mem_cons.mp hq with rfl | hq2
        · exact absurd hqn hp
        · exact ⟨q, hq2, hqn⟩

/-- Auxiliary: column lookup across an append. -/
theorem getCol_append (l1 l2 : List (String × List (Option ℝ))) (nm : String) :
    getCol (l1 ++ l2) nm = match getCol l1 nm with
      | some c => some c
      | none => getCol l2 nm := by
  induction l1 with
  | nil => rfl
  | cons p l ih =>
      simp only [List.cons_append, getCol]
      by_cases hnm : p.1 = nm
      · rw [if_pos hnm, if_pos hnm]
      · rw [if_neg hnm, if_neg hnm]
        exact ih

/-- Auxiliary: lookup of an absent name is `none`. -/
theorem getCol_none_of_not_mem (l : List (String × List (Option ℝ)))
    (n : String) (h : ¬ ∃ p ∈ l, p.1 = n) : getCol l n = none := by
  induction l with
  | nil => rfl
  | cons p l ih =>
      simp only [getCol]
      rw [if_neg (fun hp => h ⟨p, List.mem_cons_self p l, hp⟩)]
      exact ih (fun ⟨q, hq, hqn⟩ => h ⟨q, List.mem_cons_of_mem p hq, hqn⟩)

/-- Auxiliary: after `setCol f n c`, looking up `n` yields `c`. -/
theorem getCol_setCol_self (f : Frame) (n : String) (c : List (Option ℝ)) :
    getCol (setCol f n c).extra n = some c := by
  unfold setCol
  split
  next hex => exact getCol_map_replace_self f.extra n c hex
  next hex =>
      rw [getCol_append, getCol_none_of_not_mem f.extra n hex]
      simp [getCol]

/-- Auxiliary: `setCol f n c` does not affect lookups of other names. -/
theorem getCol_setCol_ne (f : Frame) (n nm : String) (c : List (Option ℝ))
    (h : nm ≠ n) : getCol (setCol f n c).extra nm = getCol f.extra nm := by
  unfold setCol
  split
  next hex => exact getCol_map_replace_ne f.extra n nm c h
  next hex =>
      rw [getCol_append]
      cases hg : getCol f.extra nm with
      | some col => rfl
      | none =>
          simp only [getCol]
          rw [if_neg (fun hh : n = nm => h hh.symm)]

/-- Auxiliary: `setCol` preserves the presence of every column. -/
theorem getCol_setCol_isSome (f : Frame) (n nm : String) (c : List (Option ℝ))
    (h : (getCol f.extra nm).isSome) :
    (getCol (setCol f n c).extra nm).isSome := by
  by_cases hnm : nm = n
  · subst hnm
    rw [getCol_setCol_self]
    rfl
  · rw [getCol_setCol_ne f n nm c hnm]
    exact h

/-- Auxiliary: the window loop of `calculate_volatility` preserves the index,
the `Close` column and every column it does not name, and makes each
`RollMean_label` / `Vol_label` column present. -/
theorem vol_foldl_frame (ret : List (Option ℝ)) :
    ∀ (ws : List (String × ℕ)) (acc : Frame),
      (ws.foldl (volStep ret) acc).dates = acc.dates
      ∧ (ws.foldl (volStep ret) acc).close = acc.close
      ∧ (∀ nm : String,
          (∀ w ∈ ws, nm ≠ "RollMean_" ++ w.1 ∧ nm ≠ "Vol_" ++ w.1) →
          getCol (ws.foldl (volStep ret) acc).extra nm = getCol acc.extra nm)
      ∧ (∀ nm : String, (getCol acc.extra nm).isSome →
          (getCol (ws.foldl (volStep ret) acc).extra nm).isSome)
      ∧ (∀ w ∈ ws,
          (getCol (ws.foldl (volStep ret) acc).extra ("RollMean_" ++ w.1)).isSome
          ∧ (getCol (ws.foldl (volStep ret) acc).extra ("Vol_" ++ w.1)).isSome) := by
  intro ws
  induction ws with
  | nil =>
      intro acc
      exact ⟨rfl, rfl, fun nm _ => rfl, fun nm h => h,
        fun w hw => absurd hw (List.not_mem_nil w)⟩
  | cons w ws ih =>
      intro acc
      rw [List.foldl_cons]
      obtain ⟨ih1, ih2, ih3, ih4, ih5⟩ := ih (volStep ret acc w)
      have hstep_dates : (volStep ret acc w).dates = acc.dates := by
        unfold volStep
        rw [(setCol_dates_close ..).1, (setCol_dates_close ..).1]
      have hstep_close : (volStep ret acc w).close = acc.close := by
        unfold volStep
        rw [(setCol_dates_close ..).2, (setCol_dates_close ..).2]
      refine ⟨ih1.trans hstep_dates, ih2.trans hstep_close, ?_, ?_, ?_⟩
      · intro nm hnm
        obtain ⟨hRM, hV⟩ := hnm w (List.mem_cons_self w ws)
        have hrest := fun w2 hw2 => hnm w2 (List.mem_cons_of_mem w hw2)
        rw [ih3 nm hrest]
        unfold volStep
        rw [getCol_setCol_ne _ _ _ _ hV, getCol_setCol_ne _ _ _ _ hRM]
      · intro nm h
        refine ih4 nm ?_
        unfold volStep
        exact getCol_setCol_isSome _ _ _ _ (getCol_setCol_isSome _ _ _ _ h)
      · intro w2 hw2
        rcases List.mem_cons.mp hw2 with rfl | hw3
        · constructor
          · refine ih4 _ ?_
            unfold volStep
            refine getCol_setCol_isSome _ _ _ _ ?_
            rw [getCol_setCol_self]
            rfl
          · refine ih4 _ ?_
            unfold volStep
            rw [getCol_setCol_self]
            rfl
        · exact ih5 w2 hw3

/-- C9: `calculate_volatility` returns the caller's table with only the
`Returns`, `RollMean_label` and `Vol_label` columns added: the `Date` index
and the `Close` column are unchanged, every other column is untouched, and the
named columns are present in the result. -/
theorem c9_frame_effect (fr : Frame) (ws : List (String × ℕ)) (m : RetMethod)
    (fd : Bool) :
    (calculate_volatility fr ws m fd).dates = fr.dates
    ∧ (calculate_volatility fr ws m fd).close = fr.close
    ∧ (∀ nm : String, nm ≠ "Returns" →
        (∀ w ∈ ws, nm ≠ "RollMean_" ++ w.1 ∧ nm ≠ "Vol_" ++ w.1) →
        getCol (calculate_volatility fr ws m fd).extra nm = getCol fr.extra nm)
    ∧ (getCol (calculate_volatility fr ws m fd).extra "Returns").isSome
    ∧ (∀ w ∈ ws,
        (getCol (calculate_volatility fr ws m fd).extra ("RollMean_" ++ w.1)).isSome
        ∧ (getCol (calculate_volatility fr ws m fd).extra ("Vol_" ++ w.1)).isSome) := by
  obtain ⟨h1, h2, h3, h4, h5⟩ := vol_foldl_frame (returnsColumn fr.close m fd) ws
    (setCol fr "Returns" (returnsColumn fr.close m fd))
  unfold calculate_volatility
  refine ⟨h1.trans (setCol_dates_close ..).1, h2.trans (setCol_dates_close ..).2,
    ?_, ?_, h5⟩
  · intro nm hret hws
    rw [h3 nm hws, getCol_setCol_ne fr "Returns" nm _ hret]
  · refine h4 "Returns" ?_
    rw [getCol_setCol_self]
    rfl

/-- C9 witness: a concrete frame with a pre-existing column `Foo` and one
window labelled `1M` — `Foo`, the dates and the closes survive unchanged and
the new columns are present. -/
theorem c9_frame_effect_witness :
    (calculate_volatility ⟨[0], [100], [("Foo", [some 1])]⟩ [("1M", 21)]
        RetMethod.bps true).dates = [0]
    ∧ (calculate_volatility ⟨[0], [100], [("Foo", [some 1])]⟩ [("1M", 21)]
        RetMethod.bps true).close = [100]
    ∧ getCol (calculate_volatility ⟨[0], [100], [("Foo", [some 1])]⟩ [("1M", 21)]
        RetMethod.bps true).extra "Foo" = some [some 1]
    ∧ (getCol (calculate_volatility ⟨[0], [100], [("Foo", [some 1])]⟩ [("1M", 21)]
        RetMethod.bps true).extra ("Vol_" ++ "1M")).isSome := by
  obtain ⟨h1, h2, h3, h4, h5⟩ := c9_frame_effect ⟨[0], [100], [("Foo", [some 1])]⟩
    [("1M", 21)] RetMethod.bps true
  refine ⟨h1, h2, ?_, (h5 ("1M", 21) (List.mem_cons_self ..)).2⟩
  rw [h3 "Foo" (by decide) ?_]
  · rfl
  · intro w hw
    rcases List.mem_cons.mp hw with rfl | hw2
    · exact ⟨by decide, by decide⟩
    · exact absurd hw2 (List.not_mem_nil w)

/-- Auxiliary: a sequenced list of optionals is defined exactly when every
entry is. -/
theorem seqOption_isSome_iff {α : Type} (l : List (Option α)) :
    (seqOption l).isSome ↔ ∀ o ∈ l, o.isSome := by
  induction l with
  | nil => simp [seqOption]
  | cons o l ih =>
      cases o with
      | none => simp [seqOption]
      | some x => simpa [seqOption, Option.isSome_map'] using ih

/-- Auxiliary: a return step on positive prices is always defined. -/
theorem retStep_isSome (m : RetMethod) (fd : Bool) (p c : ℚ) (hp : 0 < p)
    (hc : 0 < c) : (retStep m fd p c).isSome := by
  cases m with
  | log => simp [retStep, hp, hc]
  | bps =>
      cases fd with
      | false => simp [retStep, ne_of_gt hp]
      | true => simp [retStep]

/-- Auxiliary: the `Returns` column is as long as the `Close` column. -/
theorem returnsColumn_length (close : List ℚ) (m : RetMethod) (fd : Bool) :
    (returnsColumn close m fd).length = close.length := by
  simp [returnsColumn]

/-- Auxiliary: how many indices of `range P` are at least `N`. -/
theorem countP_range_le (P N : ℕ) :
    (List.range P).countP (fun t => decide (N ≤ t)) = P - N := by
  induction P with
  | zero => simp
  | succ P ih =>
      rw [List.range_succ, List.countP_append, ih]
      by_cases h : N ≤ P
      · simp [List.countP_cons, h]
        omega
      · simp [List.countP_cons, h]
        omega

/-- Auxiliary: entry `t` of the `Returns` column over positive prices is
defined exactly when `t ≥ 1`. -/
theorem returnsColumn_entry_isSome (close : List ℚ) (m : RetMethod) (fd : Bool)
    (hpos : ∀ c ∈ close, 0 < c) (t : ℕ) (ht : t < close.length) :
    ((if t = 0 then none
      else match close[t-1]?, close[t]? with
        | some p, some c => retStep m fd p c
        | _, _ => none) : Option ℝ).isSome ↔ 1 ≤ t := by
  rcases Nat.eq_zero_or_pos t with rfl | ht1
  · simp
  · rw [if_neg (by omega)]
    have hm1 : t - 1 < close.length := by omega
    rw [List.getElem?_eq_getElem hm1, List.getElem?_eq_getElem ht]
    show (retStep m fd close[t-1] close[t]).isSome ↔ 1 ≤ t
    constructor
    · intro _
      exact ht1
    · intro _
      exact retStep_isSome m fd _ _ (hpos _ (List.getElem_mem hm1))
        (hpos _ (List.getElem_mem ht))

/-- Auxiliary: any defined lookup in the `Returns` column over positive prices
is defined exactly when its index is at least 1. -/
theorem returnsColumn_isSome_of_getElem (close : List ℚ) (m : RetMethod)
    (fd : Bool) (hpos : ∀ c ∈ close, 0 < c) (idx : ℕ) (o : Option ℝ)
    (h : (returnsColumn close m fd)[idx]? = some o) : o.isSome ↔ 1 ≤ idx := by
  have hlt : idx < (returnsColumn close m fd).length := by
    by_contra hge
    rw [List.getElem?_eq_none (le_of_not_lt hge)] at h
    exact absurd h (by simp)
  have hlt2 : idx < close.length := by rwa [returnsColumn_length] at hlt
  rw [returnsColumn_getElem close m fd idx hlt2] at h
  rw [← Option.some.inj h]
  exact returnsColumn_entry_isSome close m fd hpos idx hlt2

/-- Auxiliary: the defined-observation count of the `Returns` column over
positive prices is one less than the number of price rows. -/
theorem returnsColumn_definedCount (close : List ℚ) (m : RetMethod) (fd : Bool)
    (hpos : ∀ c ∈ close, 0 < c) :
    definedCount (returnsColumn close m fd) = close.length - 1 := by
  unfold definedCount returnsColumn
  rw [List.countP_map]
  refine (List.countP_congr ?_).trans (countP_range_le close.length 1)
  intro t ht
  have htP : t < close.length := List.mem_range.mp ht
  simp only [Function.comp_apply, decide_eq_true_eq]
  exact returnsColumn_entry_isSome close m fd hpos t htP

/-- Auxiliary: the volatility column is as long as the price column. -/
theorem volColumn_length (close : List ℚ) (m : RetMethod) (fd : Bool) (N : ℕ) :
    (volColumn N (returnsColumn close m fd)).length = close.length := by
  unfold volColumn rollVar rollingAgg
  rw [List.length_map, List.length_map, List.length_range, returnsColumn_length]

/-- Auxiliary: over positive prices an entry of the annualized volatility
column at position `t` is defined exactly when `t ≥ N` (so exactly when at
least `N` defined returns precede and include position `t`). -/
theorem volColumn_entry_isSome (close : List ℚ) (m : RetMethod) (fd : Bool)
    (N : ℕ) (hpos : ∀ c ∈ close, 0 < c) (hN : 2 ≤ N) (t : ℕ)
    (ht : t < close.length) (o : Option ℝ)
    (h : (volColumn N (returnsColumn close m fd))[t]? = some o) :
    o.isSome ↔ N ≤ t := by
  unfold volColumn rollVar rollingAgg at h
  rw [List.map_map, List.getElem?_map,
    List.getElem?_range (by rwa [returnsColumn_length])] at h
  simp only [Option.map_some'] at h
  rw [← Option.some.inj h]
  simp only [Function.comp_apply]
  by_cases hts : N ≤ t
  · have hgate : N ≤ t + 1 := by omega
    have hall : ∀ z ∈ windowSlice (returnsColumn close m fd) N t, z.isSome := by
      intro z hz
      obtain ⟨j, hj⟩ := List.mem_iff_getElem?.mp hz
      unfold windowSlice at hj
      rw [List.getElem?_take] at hj
      by_cases hjN : j < N
      · rw [if_pos hjN, List.getElem?_drop] at hj
        have h1le : 1 ≤ t + 1 - N + j := by omega
        exact (returnsColumn_isSome_of_getElem close m fd hpos _ z hj).mpr h1le
      · rw [if_neg hjN] at hj
        exact absurd hj (by simp)
    obtain ⟨w, hw⟩ := Option.isSome_iff_exists.mp
      ((seqOption_isSome_iff _).mpr hall)
    rw [if_pos hgate]
    simp only [hw]
    rw [if_pos hN]
    have hvar : 0 ≤ ((w.map fun x => (x - w.sum / (N : ℝ)) ^ 2).sum)
        / ((N : ℝ) - 1) := by
      refine div_nonneg (List.sum_nonneg ?_) ?_
      · intro z hz
        rcases List.mem_map.mp hz with ⟨y, _, rfl⟩
        exact sq_nonneg _
      · have h2 : (2 : ℝ) ≤ (N : ℝ) := by exact_mod_cast hN
        linarith
    simp [hvar, hts]
  · have htN : t < N := by omega
    by_cases hgate : N ≤ t + 1
    · have h0 : (returnsColumn close m fd)[0]? = some none := by
        rw [returnsColumn_getElem close m fd 0 (by omega)]
        simp
      have hmemnone : (none : Option ℝ)
          ∈ windowSlice (returnsColumn close m fd) N t := by
        refine List.mem_iff_getElem?.mpr ⟨0, ?_⟩
        unfold windowSlice
        rw [List.getElem?_take, if_pos (by omega), List.getElem?_drop]
        have hz : t + 1 - N + 0 = 0 := by omega
        rw [hz, h0]
      have hnone : seqOption (windowSlice (returnsColumn close m fd) N t)
          = none := by
        rw [← Option.not_isSome_iff_eq_none]
        intro hs
        exact absurd ((seqOption_isSome_iff _).mp hs none hmemnone) (by simp)
      rw [if_pos hgate]
      simp only [hnone]
      simp [hts]
    · rw [if_neg hgate]
      simp [hts]

/-- Auxiliary: the defined-observation count of the annualized volatility
column over positive prices. -/
theorem volColumn_definedCount (close : List ℚ) (m : RetMethod) (fd : Bool)
    (N : ℕ) (hpos : ∀ c ∈ close, 0 < c) (hN : 2 ≤ N) :
    definedCount (volColumn N (returnsColumn close m fd)) = close.length - N := by
  unfold definedCount volColumn rollVar rollingAgg
  rw [List.map_map, List.countP_map, returnsColumn_length]
  refine (List.countP_congr ?_).trans (countP_range_le close.length N)
  intro t ht
  have htP : t < close.length := List.mem_range.mp ht
  simp only [Function.comp_apply, decide_eq_true_eq]
  refine volColumn_entry_isSome close m fd N hpos hN t htP _ ?_
  unfold volColumn rollVar rollingAgg
  rw [List.map_map, List.getElem?_map,
    List.getElem?_range (by rwa [returnsColumn_length])]
  rfl

/-- Auxiliary: with window 1 the rolling variance (hence the volatility
column) is everywhere undefined, because `ddof = 1` leaves no degrees of
freedom. -/
theorem volColumn_one_definedCount (xs : List (Option ℝ)) :
    definedCount (volColumn 1 xs) = 0 := by
  unfold definedCount volColumn rollVar rollingAgg
  rw [List.map_map, List.countP_map]
  refine List.countP_eq_zero.mpr ?_
  intro t _
  simp only [Function.comp_apply]
  rw [if_pos (by omega)]
  cases hsw : seqOption (windowSlice xs 1 t) <;> simp [hsw]

/-- C5 counterexample: prices `[1, 2, 3, 4, 5]` (difference-scaled yield
method) give a return series with `L = 4` defined observations; with window
`N = 2 ≤ L` the volatility column has 3 defined observations, not `L - N = 2`;
and with window `N = 1` it has 0 defined observations, not `L - 1 = 3`. -/
theorem c5_counterexample :
    definedCount (returnsColumn [1, 2, 3, 4, 5] RetMethod.bps true) = 4
    ∧ definedCount (volColumn 2 (returnsColumn [1, 2, 3, 4, 5] RetMethod.bps true)) = 3
    ∧ (3 : ℕ) ≠ 4 - 2
    ∧ definedCount (volColumn 1 (returnsColumn [1, 2, 3, 4, 5] RetMethod.bps true)) = 0
    ∧ (0 : ℕ) ≠ 4 - 1 := by
  have hpos : ∀ c ∈ ([1, 2, 3, 4, 5] : List ℚ), 0 < c := by decide
  refine ⟨?_, ?_, by norm_num, ?_, by norm_num⟩
  · rw [returnsColumn_definedCount _ _ _ hpos]
    rfl
  · rw [volColumn_definedCount _ _ _ 2 hpos (by norm_num)]
    rfl
  · rw [volColumn_one_definedCount]

/-- C5 (corrected statement): over positive prices, for a window `2 ≤ N` with
`N` at most the number `L` of defined returns, the annualized volatility
column has exactly `L - N + 1` defined observations (`L` is one less than the
number of price rows), every defined volatility value is non-negative, and
every date with fewer than `N` trailing returns has an undefined entry. -/
theorem c5_vol_series_count (close : List ℚ) (m : RetMethod) (fd : Bool)
    (N : ℕ) (hpos : ∀ c ∈ close, 0 < c) (hN : 2 ≤ N)
    (hNL : N ≤ definedCount (returnsColumn close m fd)) :
    definedCount (volColumn N (returnsColumn close m fd))
      = definedCount (returnsColumn close m fd) - N + 1
    ∧ (∀ o ∈ volColumn N (returnsColumn close m fd), ∀ v : ℝ, o = some v → 0 ≤ v)
    ∧ (∀ t : ℕ, t < close.length → t < N →
        (volColumn N (returnsColumn close m fd))[t]? = some none) := by
  have hL : definedCount (returnsColumn close m fd) = close.length - 1 :=
    returnsColumn_definedCount close m fd hpos
  refine ⟨?_, ?_, ?_⟩
  · rw [volColumn_definedCount close m fd N hpos hN, hL]
    rw [hL] at hNL
    omega
  · intro o ho v hv
    unfold volColumn at ho
    rcases List.mem_map.mp ho with ⟨o2, _, rfl⟩
    rcases Option.bind_eq_some.mp hv with ⟨v2, _, hg⟩
    by_cases h02 : 0 ≤ v2
    · rw [if_pos h02] at hg
      rw [← Option.some.inj hg]
      exact mul_nonneg (Real.sqrt_nonneg _) (Real.sqrt_nonneg _)
    · rw [if_neg h02] at hg
      exact absurd hg (by simp)
  · intro t htP htN
    have htcol : t < (volColumn N (returnsColumn close m fd)).length := by
      rwa [volColumn_length]
    have hval := List.getElem?_eq_getElem htcol
    have hiff := volColumn_entry_isSome close m fd N hpos hN t htP _ hval
    have hnot : ¬ N ≤ t := by omega
    have hz : (volColumn N (returnsColumn close m fd))[t] = none :=
      Option.not_isSome_iff_eq_none.mp (fun hs => hnot (hiff.mp hs))
    rw [hval, hz]

/-- C5 witness: prices `[1, 2, 3, 4, 5]` with window `N = 2`: `L = 4` defined
returns, `L - N + 1 = 3` defined volatility observations, and date 1 (with
only one trailing return) has an undefined volatility entry. -/
theorem c5_vol_series_count_witness :
    definedCount (volColumn 2 (returnsColumn [1, 2, 3, 4, 5] RetMethod.log false))
      = definedCount (returnsColumn [1, 2, 3, 4, 5] RetMethod.log false) - 2 + 1
    ∧ (volColumn 2 (returnsColumn [1, 2, 3, 4, 5] RetMethod.log false))[1]? = some none := by
  have hpos : ∀ c ∈ ([1, 2, 3, 4, 5] : List ℚ), 0 < c := by decide
  have hNL : 2 ≤ definedCount (returnsColumn [1, 2, 3, 4, 5] RetMethod.log false) := by
    rw [returnsColumn_definedCount _ _ _ hpos]
    norm_num
  obtain ⟨h1, h2, h3⟩ := c5_vol_series_count [1, 2, 3, 4, 5] RetMethod.log false 2
    hpos (by norm_num) hNL
  exact ⟨h1, h3 1 (by norm_num) (by norm_num)⟩

end MarketSurfer
